import Mathlib

/-!
Verification of the session registry and packet partitioner of the handler
component (`core/components/handler_storage.go`).

Byte strings are modelled as `List Nat`; only field sizes and byte values
matter for the properties at stake.  The durable key-value engine behind the
registry is modelled as an association list from device addresses to the
stored binary blobs, and the generic storage helpers (`lookup`, `store`,
`newEntryReadWriter`, ...) that live outside the provided sources are
modelled from the spec where noted.
-/

namespace TTN

/-- Byte strings: a list of byte values. -/
abbrev Bytes := List Nat

/-- The three error kinds surfaced by this layer (spec section 7):
`InvalidStructure`, `NotFound`, `StorageFailure`. -/
inductive StorageError where
  | InvalidStructure
  | NotFound
  | StorageFailure
deriving DecidableEq, Repr

/-- `handlerEntry` stores all information that link an application to a
device: `AppEUI` (8 bytes), `AppSKey` (16 bytes), `DevAddr` (4 bytes),
`NwkSKey` (16 bytes). -/
structure handlerEntry where
  AppEUI  : Bytes
  AppSKey : Bytes
  DevAddr : Bytes
  NwkSKey : Bytes
deriving DecidableEq, Repr

/-- The fields of a handler entry have their Go fixed-array sizes:
`EUI64`, `AES128Key`, `DevAddr`, `AES128Key`. -/
def handlerEntry.Sized (e : handlerEntry) : Prop :=
  e.AppEUI.length = 8 ∧ e.AppSKey.length = 16 ∧
    e.DevAddr.length = 4 ∧ e.NwkSKey.length = 16

instance (e : handlerEntry) : Decidable e.Sized := by
  unfold handlerEntry.Sized; infer_instance

/-- Go's `copy` into a zero-initialised fixed-size destination of `n` bytes:
copies `min n src.length` bytes, the rest of the destination stays zero. -/
def copyInto (n : Nat) (src : Bytes) : Bytes :=
  src.take (min n src.length) ++ List.replicate (n - min n src.length) 0

/-- `MarshalBinary` writes the four fields in fixed order.
Modelled from the spec: the entry writer helper (`newEntryReadWriter`) is not
among the provided sources; per spec section 4.1 each field is written at its
fixed width (the spec leaves the choice between a length prefix and a fixed
width to the implementer, and requires decode to reject truncated input). -/
def handlerEntry.MarshalBinary (e : handlerEntry) : Bytes :=
  e.AppEUI ++ e.AppSKey ++ e.DevAddr ++ e.NwkSKey

/-- Modelled from the spec: the sequential field reader backing
`UnmarshalBinary` (`newEntryReadWriter` is not among the provided sources).
It holds the remaining bytes and a sticky error. -/
structure entryReadWriter where
  data : Bytes
  err  : Option StorageError

/-- Modelled from the spec: reading one fixed-width field.  A read after an
error is a no-op; a field that cannot be fully read from the remaining input
fails with `InvalidStructure` (spec section 4.1: decode "fails per-field on
truncation"). -/
def entryReadWriter.read (r : entryReadWriter) (n : Nat) :
    Bytes × entryReadWriter :=
  match r.err with
  | some _ => ([], r)
  | none =>
    if n ≤ r.data.length then
      (r.data.take n, ⟨r.data.drop n, none⟩)
    else
      ([], ⟨r.data, some .InvalidStructure⟩)

/-- `UnmarshalBinary` checks the 4-byte minimum, then reads the four fields
in order, each copied (Go `copy`) into its zero-initialised fixed-size
destination, and finally reports the reader's error if any. -/
def handlerEntry.UnmarshalBinary (data : Bytes) :
    Except StorageError handlerEntry :=
  if data.length < 4 then .error .InvalidStructure
  else
    let r0 : entryReadWriter := ⟨data, none⟩
    let (a, r1) := r0.read 8
    let (b, r2) := r1.read 16
    let (c, r3) := r2.read 4
    let (d, r4) := r3.read 16
    match r4.err with
    | some e => .error e
    | none => .ok ⟨copyInto 8 a, copyInto 16 b, copyInto 4 c, copyInto 16 d⟩

instance {ε α : Type} [DecidableEq ε] [DecidableEq α] :
    DecidableEq (Except ε α)
  | .ok a, .ok b =>
    if h : a = b then .isTrue (by rw [h]) else .isFalse (by simp [h])
  | .error a, .error b =>
    if h : a = b then .isTrue (by rw [h]) else .isFalse (by simp [h])
  | .ok _, .error _ => .isFalse (by simp)
  | .error _, .ok _ => .isFalse (by simp)

/-! ## Session registry

The bolt engine is modelled as an association list from device address to
the list of stored blobs, in insertion order (spec section 6: the registry
merges the new entry into the stored collection for the key). -/

/-- Persistent state of the handler: the "applications" bucket. -/
structure HandlerState where
  applications : List (Bytes × List Bytes)

/-- The blobs stored under a key (empty when the key is absent). -/
def getBlobs : List (Bytes × List Bytes) → Bytes → List Bytes
  | [], _ => []
  | kv :: rest, k => if kv.1 = k then kv.2 else getBlobs rest k

/-- Overwrite the collection stored under a key. -/
def setBlobs : List (Bytes × List Bytes) → Bytes → List Bytes →
    List (Bytes × List Bytes)
  | [], k, v => [(k, v)]
  | kv :: rest, k, v =>
    if kv.1 = k then (k, v) :: rest else kv :: setBlobs rest k v

/-- Decoding every stored blob in order, failing on the first undecodable
one (spec section 4.2: an entry that fails to decode during `Lookup` is
surfaced as `InvalidStructure`). -/
def decodeAll : List Bytes → Except StorageError (List handlerEntry)
  | [] => .ok []
  | b :: rest =>
    match handlerEntry.UnmarshalBinary b with
    | .error err => .error err
    | .ok e =>
      match decodeAll rest with
      | .error err => .error err
      | .ok es => .ok (e :: es)

/-- `Lookup` retrieves all entries associated to a given device address.
Modelled from the spec: the generic `lookup` helper over the bolt engine is
not among the provided sources; per spec section 4.2 it returns every entry
stored under the address in insertion order, an empty list when none exist. -/
def Lookup (s : HandlerState) (devAddr : Bytes) :
    Except StorageError (List handlerEntry) :=
  decodeAll (getBlobs s.applications devAddr)

/-- `Store` creates a new entry and adds it to the other entries (if any).
Modelled from the spec: the generic `store` helper is not among the provided
sources; per spec sections 4.2 and 6 it appends the encoded entry to the
stored collection for the address without removing existing entries. -/
def Store (s : HandlerState) (devAddr : Bytes) (entry : handlerEntry) :
    HandlerState :=
  ⟨setBlobs s.applications devAddr
    (getBlobs s.applications devAddr ++ [entry.MarshalBinary])⟩

/-- `Reset` removes all entries stored in the storage.
Modelled from the spec: the `resetDB` helper is not among the provided
sources; per spec section 4.2 it restores the registry to its initial empty
state. -/
def Reset (_ : HandlerState) : HandlerState := ⟨[]⟩

/-! ## Partitioner -/

/-- The packet collaborator, opaque to this layer (spec section 6):
`DevAddr` yields the 4-byte short address or fails (`none`), and
`ValidateMIC key` yields the boolean outcome of the integrity check or fails
(`none` models the error return, `some false` a mismatch). -/
structure Packet where
  DevAddr     : Option Bytes
  ValidateMIC : Bytes → Option Bool

/-- `handlerPartition` as generated by the partition method: the matched
entry (embedded `handlerEntry` in the source), the partition id
(`AppEUI(8) | DevAddr(4)`), and the packets of that partition. -/
structure handlerPartition where
  entry   : handlerEntry
  Id      : Bytes
  Packets : List Packet

/-- The partition id computed from a matched entry:
`copy(id[:8], entry.AppEUI); copy(id[8:], entry.DevAddr)` on a
zero-initialised 12-byte array. -/
def mkPartitionId (e : handlerEntry) : Bytes :=
  copyInto 8 e.AppEUI ++ copyInto 4 e.DevAddr

/-- The inner candidate loop of `Partition`: compute the MIC check for each
candidate in order; `continue` on error or mismatch, and `break` on the
first success. -/
def findMatch (p : Packet) : List handlerEntry → Option handlerEntry
  | [] => none
  | e :: rest =>
    match p.ValidateMIC e.NwkSKey with
    | some true => some e
    | _ => findMatch p rest

/-- `partitions[id] = handlerPartition{entry, id, append(partitions[id].Packets, packet)}`:
the map update of `Partition`, on the association-list view of the map (the
absent key reads as the zero value, so the appended list starts at `[p]`). -/
def addPacket : List handlerPartition → Bytes → handlerEntry → Packet →
    List handlerPartition
  | [], pid, e, p => [⟨e, pid, [p]⟩]
  | part :: rest, pid, e, p =>
    if part.Id = pid then ⟨e, pid, part.Packets ++ [p]⟩ :: rest
    else part :: addPacket rest pid e p

/-- One iteration of the outer loop of `Partition`: extract the device
address (failure aborts with `InvalidStructure`), look the candidates up
(failure propagates), and file the packet under the first matching
candidate, dropping it when none matches. -/
def partitionStep (s : HandlerState) (acc : List handlerPartition)
    (p : Packet) : Except StorageError (List handlerPartition) :=
  match p.DevAddr with
  | none => .error .InvalidStructure
  | some devAddr =>
    match Lookup s devAddr with
    | .error err => .error err
    | .ok entries =>
      match findMatch p entries with
      | none => .ok acc
      | some entry => .ok (addPacket acc (mkPartitionId entry) entry p)

/-- The outer loop of `Partition` over the batch. -/
def partitionLoop (s : HandlerState) :
    List Packet → List handlerPartition →
    Except StorageError (List handlerPartition)
  | [], acc => .ok acc
  | p :: ps, acc =>
    match partitionStep s acc p with
    | .error err => .error err
    | .ok acc2 => partitionLoop s ps acc2

/-- `Partition` splits the packets given in argument in multiple sets, each
associated to a single device of a single app; an empty result fails with
`NotFound`. -/
def Partition (s : HandlerState) (packets : List Packet) :
    Except StorageError (List handlerPartition) :=
  match partitionLoop s packets [] with
  | .error e => .error e
  | .ok res =>
    match res with
    | [] => .error .NotFound
    | _ => .ok res

/-! ## Derived predicates used in the statements -/

/-- Packet `p` resolves to entry `e` in state `s`: its address extraction
succeeds, the candidate lookup succeeds, and the first-match scan of the
candidates selects `e`. -/
def matchedEntry (s : HandlerState) (p : Packet) (e : handlerEntry) : Prop :=
  ∃ addr l, p.DevAddr = some addr ∧ Lookup s addr = .ok l ∧
    findMatch p l = some e

/-- Invariant of one partition relative to the packets `done` consumed so
far: its packet list is an order-preserving selection of `done`, its id is
the one computed from its snapshot, every filed packet resolved to an entry
with this partition's id, and the snapshot itself is the resolved entry of
one of its packets. -/
def PartInv (s : HandlerState) (done : List Packet)
    (part : handlerPartition) : Prop :=
  part.Packets.Sublist done ∧
    part.Id = mkPartitionId part.entry ∧
    (∀ p ∈ part.Packets, ∃ e, matchedEntry s p e ∧ mkPartitionId e = part.Id) ∧
    ∃ p ∈ part.Packets, matchedEntry s p part.entry

/-! ## Concrete fixture (two colliding sessions under one short address) -/

/-- Network session key of the first test entry. -/
def testKey1 : Bytes := List.replicate 16 1

/-- Network session key of the second test entry. -/
def testKey2 : Bytes := List.replicate 16 2

/-- The shared short address of the test entries. -/
def testAddr : Bytes := [10, 0, 0, 1]

/-- First test entry, registered under `testAddr` with key `testKey1`. -/
def entryA : handlerEntry :=
  ⟨List.replicate 8 3, List.replicate 16 4, testAddr, testKey1⟩

/-- Second test entry, registered under `testAddr` with key `testKey2`. -/
def entryB : handlerEntry :=
  ⟨List.replicate 8 5, List.replicate 16 6, testAddr, testKey2⟩

/-- A packet whose integrity check succeeds exactly under `testKey1`. -/
def pktA : Packet := ⟨some testAddr, fun k => some (k = testKey1 : Bool)⟩

/-- A packet whose integrity check succeeds exactly under `testKey2`. -/
def pktB : Packet := ⟨some testAddr, fun k => some (k = testKey2 : Bool)⟩

/-- A packet whose integrity check never succeeds. -/
def pktNone : Packet := ⟨some testAddr, fun _ => some false⟩

/-- A packet whose address extraction fails. -/
def pktBad : Packet := ⟨none, fun _ => some true⟩

/-- A packet whose integrity check errors except under `testKey2`. -/
def pktErr : Packet :=
  ⟨some testAddr, fun k => if k = testKey2 then some true else none⟩

/-- State holding `entryA` then `entryB` under the shared address. -/
def state0 : HandlerState := Store (Store ⟨[]⟩ testAddr entryA) testAddr entryB

/-- The partition produced for `pktA` on `state0`. -/
def partA : handlerPartition := ⟨entryA, entryA.AppEUI ++ testAddr, [pktA]⟩

/-- The partition produced for `pktB` on `state0`. -/
def partB : handlerPartition := ⟨entryB, entryB.AppEUI ++ testAddr, [pktB]⟩

/-- An entry sharing `entryB`'s application identifier (and the shared
short address) but carrying `testKey1`: its partition id collides with
`entryB`'s. -/
def entryC : handlerEntry :=
  ⟨List.replicate 8 5, List.replicate 16 7, testAddr, testKey1⟩

/-- State holding `entryC` then `entryB` under the shared address: two
sessions under one short address whose partition ids coincide. -/
def stateC : HandlerState := Store (Store ⟨[]⟩ testAddr entryC) testAddr entryB

/-! ## Codec lemmas -/

theorem copyInto_of_length (src : Bytes) (n : Nat) (h : src.length = n) :
    copyInto n src = src := by
  subst h
  simp [copyInto]

theorem unmarshal_eq (data : Bytes) :
    handlerEntry.UnmarshalBinary data =
      if data.length < 44 then .error .InvalidStructure
      else .ok ⟨data.take 8, (data.drop 8).take 16,
        ((data.drop 8).drop 16).take 4,
        (((data.drop 8).drop 16).drop 4).take 16⟩ := by
  by_cases h4 : data.length < 4
  · have h44 : data.length < 44 := by omega
    simp [handlerEntry.UnmarshalBinary, h4, h44]
  · by_cases h8 : 8 ≤ data.length
    · by_cases h16 : 16 ≤ data.length - 8
      · by_cases h20 : 4 ≤ data.length - 24
        · by_cases h36 : 16 ≤ data.length - 28
          · have h44 : ¬ data.length < 44 := by omega
            simp [handlerEntry.UnmarshalBinary, entryReadWriter.read, h4, h8,
              h16, h20, h36, h44, List.length_drop]
            rw [copyInto_of_length _ 8 (by simp [List.length_take]; omega),
              copyInto_of_length _ 16
                (by simp [List.length_take, List.length_drop]; omega),
              copyInto_of_length _ 4
                (by simp [List.length_take, List.length_drop]; omega),
              copyInto_of_length _ 16
                (by simp [List.length_take, List.length_drop]; omega)]
            exact ⟨rfl, rfl, rfl, rfl⟩
          · have h44 : data.length < 44 := by omega
            simp [handlerEntry.UnmarshalBinary, entryReadWriter.read, h4, h8,
              h16, h20, h36, h44, List.length_drop]
        · have h44 : data.length < 44 := by omega
          simp [handlerEntry.UnmarshalBinary, entryReadWriter.read, h4, h8,
            h16, h20, h44, List.length_drop]
      · have h44 : data.length < 44 := by omega
        simp [handlerEntry.UnmarshalBinary, entryReadWriter.read, h4, h8,
          h16, h44, List.length_drop]
    · have h44 : data.length < 44 := by omega
      simp [handlerEntry.UnmarshalBinary, entryReadWriter.read, h4, h8, h44]


theorem unmarshal_marshal (e : handlerEntry) (h : e.Sized) :
    handlerEntry.UnmarshalBinary e.MarshalBinary = .ok e := by
  obtain ⟨h1, h2, h3, h4⟩ := h
  rw [handlerEntry.MarshalBinary, unmarshal_eq]
  rw [if_neg (by simp [List.length_append, h1, h2, h3, h4])]
  simp only [List.append_assoc]
  rw [List.take_left' h1, List.drop_left' h1, List.take_left' h2,
    List.drop_left' h2, List.take_left' h3, List.drop_left' h3,
    show (16 : Nat) = e.NwkSKey.length from h4.symm, List.take_length]

/-! ## Registry lemmas -/

theorem getBlobs_setBlobs (m : List (Bytes × List Bytes)) (k : Bytes)
    (v : List Bytes) : getBlobs (setBlobs m k v) k = v := by
  induction m with
  | nil => simp [setBlobs, getBlobs]
  | cons kv rest ih =>
    by_cases h : kv.1 = k
    · simp [setBlobs, getBlobs, h]
    · simp [setBlobs, getBlobs, h, ih]

theorem decodeAll_append_one (bs : List Bytes) (l : List handlerEntry)
    (b : Bytes) (e : handlerEntry) (hbs : decodeAll bs = .ok l)
    (hb : handlerEntry.UnmarshalBinary b = .ok e) :
    decodeAll (bs ++ [b]) = .ok (l ++ [e]) := by
  induction bs generalizing l with
  | nil =>
    simp only [decodeAll] at hbs
    cases hbs
    simp [decodeAll, hb]
  | cons b2 bs ih =>
    rw [List.cons_append, decodeAll]
    rw [decodeAll] at hbs
    cases hb2 : handlerEntry.UnmarshalBinary b2 with
    | error err => rw [hb2] at hbs; exact absurd hbs (by simp)
    | ok e2 =>
      rw [hb2] at hbs
      cases hrest : decodeAll bs with
      | error err => rw [hrest] at hbs; exact absurd hbs (by simp)
      | ok l2 =>
        rw [hrest] at hbs
        have hl : e2 :: l2 = l := by simpa using hbs
        subst hl
        simp [ih l2 hrest]

theorem lookup_store_self (s : HandlerState) (addr : Bytes)
    (e : handlerEntry) (l : List handlerEntry) (he : e.Sized)
    (h : Lookup s addr = .ok l) :
    Lookup (Store s addr e) addr = .ok (l ++ [e]) := by
  rw [Lookup] at h ⊢
  rw [Store]
  rw [getBlobs_setBlobs]
  exact decodeAll_append_one _ _ _ _ h (unmarshal_marshal e he)

/-! ## Codec claims -/

/-- C6: for every session entry with correctly sized fields (8-byte
`AppEUI`, 16-byte `AppSKey`, 4-byte `DevAddr`, 16-byte `NwkSKey`), decoding
the encoding of the entry yields the entry unchanged. -/
theorem decode_encode_roundtrip (e : handlerEntry) (h : e.Sized) :
    handlerEntry.UnmarshalBinary e.MarshalBinary = .ok e :=
  unmarshal_marshal e h

theorem decode_encode_roundtrip_witness :
    entryA.Sized ∧
      handlerEntry.UnmarshalBinary entryA.MarshalBinary = .ok entryA :=
  ⟨by decide, decode_encode_roundtrip entryA (by decide)⟩

/-- C7: `UnmarshalBinary` fails with `InvalidStructure` on every input
shorter than the minimum valid encoding (44 bytes in the fixed-width
layout: the 4-byte pre-check rejects inputs shorter than 4 bytes before any
field read, and any field that cannot be fully read from the remaining
input fails the per-field read). -/
theorem decode_rejects_truncated (data : Bytes) (h : data.length < 44) :
    handlerEntry.UnmarshalBinary data = .error .InvalidStructure := by
  rw [unmarshal_eq, if_pos h]

theorem decode_rejects_truncated_witness :
    ([0, 1, 2] : Bytes).length < 44 ∧
      handlerEntry.UnmarshalBinary [0, 1, 2] = .error .InvalidStructure :=
  ⟨by decide, decode_rejects_truncated [0, 1, 2] (by decide)⟩

/-! ## Registry claims -/

/-- C8: after `Store addr e` the lookup for `addr` contains `e`; a second
`Store addr e2` yields both `e` and `e2` in insertion order, removing or
overwriting no previously stored entry. -/
theorem store_lookup_insertion_order (s : HandlerState) (addr : Bytes)
    (e e2 : handlerEntry) (l : List handlerEntry) (he : e.Sized)
    (he2 : e2.Sized) (h : Lookup s addr = .ok l) :
    Lookup (Store s addr e) addr = .ok (l ++ [e]) ∧
      Lookup (Store (Store s addr e) addr e2) addr = .ok (l ++ [e] ++ [e2]) := by
  have h1 := lookup_store_self s addr e l he h
  exact ⟨h1, lookup_store_self _ addr e2 _ he2 h1⟩

theorem store_lookup_insertion_order_witness :
    entryA.Sized ∧ entryB.Sized ∧
      Lookup (HandlerState.mk []) testAddr = .ok [] ∧
      (Lookup (Store (HandlerState.mk []) testAddr entryA) testAddr =
          .ok ([] ++ [entryA]) ∧
        Lookup (Store (Store (HandlerState.mk []) testAddr entryA) testAddr
            entryB) testAddr = .ok ([] ++ [entryA] ++ [entryB])) :=
  ⟨by decide, by decide, by decide,
    store_lookup_insertion_order (HandlerState.mk []) testAddr entryA entryB
      [] (by decide) (by decide) (by decide)⟩

/-- C9: after `Reset`, the lookup for every address returns an empty list
(not an error): the registry is restored to its initial empty state. -/
theorem reset_clears_registry (s : HandlerState) (addr : Bytes) :
    Lookup (Reset s) addr = .ok [] := rfl

/-! ## Partitioner lemmas -/

theorem findMatch_of_first (p : Packet) (l1 l2 : List handlerEntry)
    (e : handlerEntry)
    (hfail : ∀ x ∈ l1, p.ValidateMIC x.NwkSKey ≠ some true)
    (hok : p.ValidateMIC e.NwkSKey = some true) :
    findMatch p (l1 ++ e :: l2) = some e := by
  induction l1 with
  | nil => simp [findMatch, hok]
  | cons x l1 ih =>
    have hrest : ∀ y ∈ l1, p.ValidateMIC y.NwkSKey ≠ some true :=
      fun y hy => hfail y (List.mem_cons_of_mem x hy)
    have hx := hfail x (List.mem_cons_self x l1)
    cases hv : p.ValidateMIC x.NwkSKey with
    | none => simp [findMatch, hv, ih hrest]
    | some b =>
      cases b with
      | false => simp [findMatch, hv, ih hrest]
      | true => exact absurd hv hx

theorem findMatch_of_none (p : Packet) (l : List handlerEntry)
    (h : ∀ x ∈ l, p.ValidateMIC x.NwkSKey ≠ some true) :
    findMatch p l = none := by
  induction l with
  | nil => rfl
  | cons x l ih =>
    have hrest : ∀ y ∈ l, p.ValidateMIC y.NwkSKey ≠ some true :=
      fun y hy => h y (List.mem_cons_of_mem x hy)
    have hx := h x (List.mem_cons_self x l)
    cases hv : p.ValidateMIC x.NwkSKey with
    | none => simp [findMatch, hv, ih hrest]
    | some b =>
      cases b with
      | false => simp [findMatch, hv, ih hrest]
      | true => exact absurd hv hx

theorem unmarshal_error_invalid (data : Bytes) (err : StorageError)
    (h : handlerEntry.UnmarshalBinary data = .error err) :
    err = .InvalidStructure := by
  rw [unmarshal_eq] at h
  by_cases hl : data.length < 44
  · rw [if_pos hl] at h
    injection h with h2
    exact h2.symm
  · rw [if_neg hl] at h
    exact absurd h (by simp)

theorem decodeAll_error_invalid (bs : List Bytes) (err : StorageError)
    (h : decodeAll bs = .error err) : err = .InvalidStructure := by
  induction bs with
  | nil => simp [decodeAll] at h
  | cons b bs ih =>
    rw [decodeAll] at h
    cases hb : handlerEntry.UnmarshalBinary b with
    | error e2 =>
      rw [hb] at h
      have he2 : e2 = err := by simpa using h
      exact he2 ▸ unmarshal_error_invalid b e2 hb
    | ok e2 =>
      rw [hb] at h
      cases hrest : decodeAll bs with
      | error err2 =>
        rw [hrest] at h
        have h2 : err2 = err := by simpa using h
        rw [h2] at hrest
        exact ih hrest
      | ok l2 => rw [hrest] at h; exact absurd h (by simp)

theorem lookup_error_invalid (s : HandlerState) (addr : Bytes)
    (err : StorageError) (h : Lookup s addr = .error err) :
    err = .InvalidStructure :=
  decodeAll_error_invalid _ err h

theorem partitionStep_error_invalid (s : HandlerState)
    (acc : List handlerPartition) (p : Packet) (err : StorageError)
    (h : partitionStep s acc p = .error err) : err = .InvalidStructure := by
  cases hda : p.DevAddr with
  | none =>
    simp only [partitionStep, hda] at h
    have h2 : StorageError.InvalidStructure = err := by simpa using h
    exact h2.symm
  | some addr =>
    simp only [partitionStep, hda] at h
    cases hlk : Lookup s addr with
    | error err2 =>
      simp only [hlk] at h
      have h2 : err2 = err := by simpa using h
      rw [← h2]
      exact lookup_error_invalid s addr err2 hlk
    | ok l =>
      simp only [hlk] at h
      cases hfm : findMatch p l with
      | none => simp only [hfm] at h; exact absurd h (by simp)
      | some e => simp only [hfm] at h; exact absurd h (by simp)

theorem partitionLoop_bad_addr (s : HandlerState) (ps : List Packet)
    (hbad : ∃ p ∈ ps, p.DevAddr = none) :
    ∀ acc, partitionLoop s ps acc = .error .InvalidStructure := by
  induction ps with
  | nil => rcases hbad with ⟨p, hp, _⟩; exact absurd hp (List.not_mem_nil p)
  | cons q ps ih =>
    intro acc
    rcases hbad with ⟨p, hp, haddr⟩
    rw [partitionLoop]
    rcases List.mem_cons.mp hp with rfl | hmem
    · simp [partitionStep, haddr]
    · cases hstep : partitionStep s acc q with
      | error err =>
        have herr := partitionStep_error_invalid s acc q err hstep
        simp [herr]
      | ok acc2 =>
        exact ih ⟨p, hmem, haddr⟩ acc2

theorem partitionLoop_no_match (s : HandlerState) (ps : List Packet)
    (h : ∀ p ∈ ps, ∃ addr l, p.DevAddr = some addr ∧ Lookup s addr = .ok l ∧
      ∀ e ∈ l, p.ValidateMIC e.NwkSKey ≠ some true) :
    ∀ acc, partitionLoop s ps acc = .ok acc := by
  induction ps with
  | nil => intro acc; rfl
  | cons q ps ih =>
    intro acc
    obtain ⟨addr, l, hda, hlk, hfail⟩ := h q (List.mem_cons_self q ps)
    have hrest : ∀ p ∈ ps, ∃ addr l, p.DevAddr = some addr ∧
        Lookup s addr = .ok l ∧
        ∀ e ∈ l, p.ValidateMIC e.NwkSKey ≠ some true :=
      fun p hp => h p (List.mem_cons_of_mem q hp)
    rw [partitionLoop]
    have hstep : partitionStep s acc q = .ok acc := by
      simp only [partitionStep, hda, hlk, findMatch_of_none q l hfail]
    rw [hstep]
    exact ih hrest acc

theorem addPacket_mem (acc : List handlerPartition) (pid : Bytes)
    (e : handlerEntry) (p : Packet) (part : handlerPartition)
    (h : part ∈ addPacket acc pid e p) :
    part ∈ acc ∨
      (∃ old, old ∈ acc ∧ old.Id = pid ∧
        part = ⟨e, pid, old.Packets ++ [p]⟩) ∨
      part = ⟨e, pid, [p]⟩ := by
  induction acc with
  | nil =>
    simp only [addPacket] at h
    have : part = ⟨e, pid, [p]⟩ := by simpa using h
    exact Or.inr (Or.inr this)
  | cons q acc ih =>
    rw [addPacket] at h
    by_cases hq : q.Id = pid
    · rw [if_pos hq] at h
      rcases List.mem_cons.mp h with h1 | h1
      · exact Or.inr (Or.inl ⟨q, List.mem_cons_self q acc, hq, h1⟩)
      · exact Or.inl (List.mem_cons_of_mem q h1)
    · rw [if_neg hq] at h
      rcases List.mem_cons.mp h with h1 | h1
      · exact Or.inl (h1 ▸ List.mem_cons_self q acc)
      · rcases ih h1 with h2 | h2 | h2
        · exact Or.inl (List.mem_cons_of_mem q h2)
        · rcases h2 with ⟨old, hold, holdid, heq⟩
          exact Or.inr (Or.inl ⟨old, List.mem_cons_of_mem q hold, holdid, heq⟩)
        · exact Or.inr (Or.inr h2)

theorem PartInv_extend (s : HandlerState) (done : List Packet) (p : Packet)
    (part : handlerPartition) (h : PartInv s done part) :
    PartInv s (done ++ [p]) part := by
  obtain ⟨h1, h2, h3, h4⟩ := h
  exact ⟨h1.trans (List.sublist_append_left done [p]), h2, h3, h4⟩

theorem partitionStep_inv (s : HandlerState) (done : List Packet)
    (acc acc2 : List handlerPartition) (p : Packet)
    (hstep : partitionStep s acc p = .ok acc2)
    (hacc : ∀ part ∈ acc, PartInv s done part) :
    ∀ part ∈ acc2, PartInv s (done ++ [p]) part := by
  cases hda : p.DevAddr with
  | none =>
    simp only [partitionStep, hda] at hstep
    exact absurd hstep (by simp)
  | some addr =>
    simp only [partitionStep, hda] at hstep
    cases hlk : Lookup s addr with
    | error err =>
      simp only [hlk] at hstep
      exact absurd hstep (by simp)
    | ok l =>
      simp only [hlk] at hstep
      cases hfm : findMatch p l with
      | none =>
        simp only [hfm] at hstep
        have hacc2 : acc = acc2 := by simpa using hstep
        subst hacc2
        exact fun part hp => PartInv_extend s done p part (hacc part hp)
      | some e =>
        simp only [hfm] at hstep
        have hacc2 : addPacket acc (mkPartitionId e) e p = acc2 := by
          simpa using hstep
        subst hacc2
        intro part hp
        have hme : matchedEntry s p e := ⟨addr, l, hda, hlk, hfm⟩
        rcases addPacket_mem acc (mkPartitionId e) e p part hp
          with h1 | h1 | h1
        · exact PartInv_extend s done p part (hacc part h1)
        · rcases h1 with ⟨old, hold, holdid, rfl⟩
          obtain ⟨o1, o2, o3, o4⟩ := hacc old hold
          refine ⟨List.Sublist.append o1 (List.Sublist.refl [p]), rfl,
            ?_, ?_⟩
          · intro q hq
            rcases List.mem_append.mp hq with hq1 | hq1
            · obtain ⟨e2, he2, he2id⟩ := o3 q hq1
              refine ⟨e2, he2, ?_⟩
              show mkPartitionId e2 = mkPartitionId e
              rw [he2id, holdid]
            · have hqp : q = p := by simpa using hq1
              subst hqp
              exact ⟨e, hme, rfl⟩
          · exact ⟨p, List.mem_append.mpr (Or.inr (List.mem_cons_self p [])),
              hme⟩
        · subst h1
          refine ⟨List.sublist_append_right done [p], rfl, ?_, ?_⟩
          · intro q hq
            have hqp : q = p := by simpa using hq
            subst hqp
            exact ⟨e, hme, rfl⟩
          · exact ⟨p, List.mem_cons_self p [], hme⟩

theorem partitionLoop_inv (s : HandlerState) (ps : List Packet) :
    ∀ done acc res, partitionLoop s ps acc = .ok res →
      (∀ part ∈ acc, PartInv s done part) →
      ∀ part ∈ res, PartInv s (done ++ ps) part := by
  induction ps with
  | nil =>
    intro done acc res h hacc
    have hr : acc = res := by simpa [partitionLoop] using h
    subst hr
    simpa using hacc
  | cons p ps ih =>
    intro done acc res h hacc
    rw [partitionLoop] at h
    cases hstep : partitionStep s acc p with
    | error err =>
      simp only [hstep] at h
      exact absurd h (by simp)
    | ok acc2 =>
      simp only [hstep] at h
      have h2 := ih (done ++ [p]) acc2 res h
        (partitionStep_inv s done acc acc2 p hstep hacc)
      simpa [List.append_assoc] using h2

theorem findMatch_mem (p : Packet) (l : List handlerEntry)
    (e : handlerEntry) (h : findMatch p l = some e) : e ∈ l := by
  induction l with
  | nil => simp [findMatch] at h
  | cons x l ih =>
    cases hv : p.ValidateMIC x.NwkSKey with
    | none =>
      simp only [findMatch, hv] at h
      exact List.mem_cons_of_mem x (ih h)
    | some b =>
      cases b with
      | false =>
        simp only [findMatch, hv] at h
        exact List.mem_cons_of_mem x (ih h)
      | true =>
        simp only [findMatch, hv] at h
        have hx : x = e := by simpa using h
        exact hx ▸ List.mem_cons_self x l

theorem matchedEntry_unique (s : HandlerState) (p : Packet)
    (e e2 : handlerEntry) (h : matchedEntry s p e)
    (h2 : matchedEntry s p e2) : e = e2 := by
  obtain ⟨a1, l1, ha1, hl1, hf1⟩ := h
  obtain ⟨a2, l2, ha2, hl2, hf2⟩ := h2
  rw [ha1] at ha2
  injection ha2 with ha2
  subst ha2
  rw [hl1] at hl2
  have hl : l1 = l2 := by simpa using hl2
  subst hl
  rw [hf1] at hf2
  injection hf2

theorem addPacket_adds (acc : List handlerPartition) (pid : Bytes)
    (e : handlerEntry) (p : Packet) :
    ∃ part ∈ addPacket acc pid e p, part.Id = pid ∧ p ∈ part.Packets := by
  induction acc with
  | nil =>
    refine ⟨⟨e, pid, [p]⟩, ?_, rfl, ?_⟩
    · rw [addPacket]; exact List.mem_cons_self _ _
    · exact List.mem_cons_self p []
  | cons q0 acc ih =>
    by_cases hq : q0.Id = pid
    · refine ⟨⟨e, pid, q0.Packets ++ [p]⟩, ?_, rfl, ?_⟩
      · rw [addPacket, if_pos hq]; exact List.mem_cons_self _ _
      · exact List.mem_append.mpr (Or.inr (List.mem_cons_self p []))
    · obtain ⟨part, hmem, hpid, hpp⟩ := ih
      refine ⟨part, ?_, hpid, hpp⟩
      rw [addPacket, if_neg hq]
      exact List.mem_cons_of_mem q0 hmem

theorem addPacket_preserves (acc : List handlerPartition) (pid : Bytes)
    (e : handlerEntry) (q : Packet) (part : handlerPartition)
    (h : part ∈ acc) :
    ∃ part2 ∈ addPacket acc pid e q, part2.Id = part.Id ∧
      ∀ x ∈ part.Packets, x ∈ part2.Packets := by
  induction acc with
  | nil => exact absurd h (List.not_mem_nil part)
  | cons q0 acc ih =>
    rcases List.mem_cons.mp h with rfl | hmem
    · by_cases hq : part.Id = pid
      · refine ⟨⟨e, pid, part.Packets ++ [q]⟩, ?_, hq.symm, ?_⟩
        · rw [addPacket, if_pos hq]; exact List.mem_cons_self _ _
        · intro x hx; exact List.mem_append.mpr (Or.inl hx)
      · refine ⟨part, ?_, rfl, fun x hx => hx⟩
        rw [addPacket, if_neg hq]
        exact List.mem_cons_self part _
    · by_cases hq : q0.Id = pid
      · refine ⟨part, ?_, rfl, fun x hx => hx⟩
        rw [addPacket, if_pos hq]
        exact List.mem_cons_of_mem _ hmem
      · obtain ⟨part2, h2, h3, h4⟩ := ih hmem
        refine ⟨part2, ?_, h3, h4⟩
        rw [addPacket, if_neg hq]
        exact List.mem_cons_of_mem q0 h2

theorem partitionStep_preserves (s : HandlerState)
    (acc acc2 : List handlerPartition) (q : Packet)
    (hstep : partitionStep s acc q = .ok acc2) (part : handlerPartition)
    (h : part ∈ acc) :
    ∃ part2 ∈ acc2, part2.Id = part.Id ∧
      ∀ x ∈ part.Packets, x ∈ part2.Packets := by
  cases hda : q.DevAddr with
  | none =>
    simp only [partitionStep, hda] at hstep
    exact absurd hstep (by simp)
  | some addr =>
    simp only [partitionStep, hda] at hstep
    cases hlk : Lookup s addr with
    | error err =>
      simp only [hlk] at hstep
      exact absurd hstep (by simp)
    | ok l =>
      simp only [hlk] at hstep
      cases hfm : findMatch q l with
      | none =>
        simp only [hfm] at hstep
        have hacc : acc = acc2 := by simpa using hstep
        subst hacc
        exact ⟨part, h, rfl, fun x hx => hx⟩
      | some e =>
        simp only [hfm] at hstep
        have hacc : addPacket acc (mkPartitionId e) e q = acc2 := by
          simpa using hstep
        subst hacc
        exact addPacket_preserves acc (mkPartitionId e) e q part h

theorem partitionLoop_preserves (s : HandlerState) (ps : List Packet) :
    ∀ acc res part, partitionLoop s ps acc = .ok res → part ∈ acc →
      ∃ part2 ∈ res, part2.Id = part.Id ∧
        ∀ x ∈ part.Packets, x ∈ part2.Packets := by
  induction ps with
  | nil =>
    intro acc res part h hmem
    have hr : acc = res := by simpa [partitionLoop] using h
    subst hr
    exact ⟨part, hmem, rfl, fun x hx => hx⟩
  | cons q ps ih =>
    intro acc res part h hmem
    rw [partitionLoop] at h
    cases hstep : partitionStep s acc q with
    | error err =>
      simp only [hstep] at h
      exact absurd h (by simp)
    | ok acc2 =>
      simp only [hstep] at h
      obtain ⟨part2, h2, h3, h4⟩ :=
        partitionStep_preserves s acc acc2 q hstep part hmem
      obtain ⟨part3, g2, g3, g4⟩ := ih acc2 res part2 h h2
      exact ⟨part3, g2, g3.trans h3, fun x hx => g4 x (h4 x hx)⟩

theorem partitionLoop_files (s : HandlerState) (ps : List Packet) :
    ∀ acc res (p : Packet) (e : handlerEntry), p ∈ ps →
      matchedEntry s p e → partitionLoop s ps acc = .ok res →
      ∃ part ∈ res, part.Id = mkPartitionId e ∧ p ∈ part.Packets := by
  induction ps with
  | nil =>
    intro acc res p e hp
    exact absurd hp (List.not_mem_nil p)
  | cons q ps ih =>
    intro acc res p e hp hme h
    rw [partitionLoop] at h
    cases hstep : partitionStep s acc q with
    | error err =>
      simp only [hstep] at h
      exact absurd h (by simp)
    | ok acc2 =>
      simp only [hstep] at h
      rcases List.mem_cons.mp hp with rfl | hmem
      · obtain ⟨addr, l, hpa, hlk, hfm⟩ := hme
        simp only [partitionStep, hpa, hlk, hfm] at hstep
        have hacc : addPacket acc (mkPartitionId e) e p = acc2 := by
          simpa using hstep
        subst hacc
        obtain ⟨part, hmem2, hpid, hpp⟩ :=
          addPacket_adds acc (mkPartitionId e) e p
        obtain ⟨part2, g2, g3, g4⟩ :=
          partitionLoop_preserves s ps _ res part h hmem2
        exact ⟨part2, g2, g3.trans hpid, g4 p hpp⟩
      · exact ih acc2 res p e hmem hme h

/-! ## Partitioner claims -/

/-- C1: candidates returned by `Lookup` are scanned in lookup order and the
first one whose integrity check returns `some true` is chosen, regardless of
what the remaining candidates (`l2`, universally quantified) would answer:
iteration stops at the first success and only the first validating
candidate in lookup order is ever the match. -/
theorem first_match_wins (s : HandlerState) (acc : List handlerPartition)
    (p : Packet) (addr : Bytes) (l1 l2 : List handlerEntry)
    (e : handlerEntry) (haddr : p.DevAddr = some addr)
    (hlk : Lookup s addr = .ok (l1 ++ e :: l2))
    (hfail : ∀ x ∈ l1, p.ValidateMIC x.NwkSKey ≠ some true)
    (hok : p.ValidateMIC e.NwkSKey = some true) :
    findMatch p (l1 ++ e :: l2) = some e ∧
      partitionStep s acc p = .ok (addPacket acc (mkPartitionId e) e p) := by
  have hfm := findMatch_of_first p l1 l2 e hfail hok
  refine ⟨hfm, ?_⟩
  simp only [partitionStep, haddr, hlk, hfm]

theorem first_match_wins_witness :
    pktB.DevAddr = some testAddr ∧
      Lookup state0 testAddr = .ok ([entryA] ++ entryB :: []) ∧
      findMatch pktB ([entryA] ++ entryB :: []) = some entryB ∧
      partitionStep state0 [] pktB =
        .ok (addPacket [] (mkPartitionId entryB) entryB pktB) :=
  ⟨rfl, by decide,
    (first_match_wins state0 [] pktB testAddr [entryA] [] entryB rfl
      (by decide) (by decide) (by decide)).1,
    (first_match_wins state0 [] pktB testAddr [entryA] [] entryB rfl
      (by decide) (by decide) (by decide)).2⟩

/-- C2, counterexample to the claim as stated: `entryC` (key `testKey1`)
and `entryB` (key `testKey2`) are stored under the same short address and
share an application identifier, so their partition ids coincide.  In the
batch `[pktB, pktA]`, the packet `pktB` validates only against `testKey2`,
yet the returned partition holding it has snapshot `entryC` (the other
entry): the later match against `entryC` overwrote the shared partition's
snapshot. -/
theorem collision_resolution_counterexample :
    entryC.NwkSKey = testKey1 ∧ entryB.NwkSKey = testKey2 ∧
      entryB.DevAddr = testAddr ∧
      Lookup stateC testAddr = .ok [entryC, entryB] ∧
      pktB.DevAddr = some testAddr ∧
      pktB.ValidateMIC testKey2 = some true ∧
      pktB.ValidateMIC testKey1 ≠ some true ∧
      Partition stateC [pktB, pktA] =
        .ok [⟨entryC, entryC.AppEUI ++ testAddr, [pktB, pktA]⟩] ∧
      entryC ≠ entryB :=
  ⟨rfl, rfl, rfl, by decide, rfl, by decide, by decide, rfl, by decide⟩

/-- C2 as amended: with two entries `ea` (key `k1`) and `eb` (key `k2`)
stored under one shared short address, with **distinct application
identifiers** (the counterexample shows the claim fails without this), and
the registry holding no entries besides `ea` and `eb`, every packet of a
successful `Partition` batch that validates only against `k2` is placed in
a partition whose id is `eb`'s application identifier followed by the short
address and whose snapshot is `eb`; every partition holding it has that id
and snapshot, so it is never placed in a partition whose snapshot is
`ea`. -/
theorem collision_resolution_amended (s : HandlerState) (ps : List Packet)
    (res : List handlerPartition) (p : Packet) (addr k1 k2 : Bytes)
    (ea eb : handlerEntry) (l : List handlerEntry)
    (hk1 : ea.NwkSKey = k1) (hk2 : eb.NwkSKey = k2)
    (ha1 : ea.AppEUI.length = 8) (hb1 : eb.AppEUI.length = 8)
    (hszd : eb.DevAddr = addr) (hlen : addr.length = 4)
    (happ : ea.AppEUI ≠ eb.AppEUI)
    (hmem : p ∈ ps) (hpa : p.DevAddr = some addr)
    (hl : Lookup s addr = .ok l) (horder : l = [ea, eb] ∨ l = [eb, ea])
    (honly : ∀ addr2 l2, Lookup s addr2 = .ok l2 → ∀ x ∈ l2, x = ea ∨ x = eb)
    (hv2 : p.ValidateMIC k2 = some true)
    (hv1 : p.ValidateMIC k1 ≠ some true)
    (hres : Partition s ps = .ok res) :
    (∃ part ∈ res, p ∈ part.Packets ∧ part.Id = eb.AppEUI ++ addr ∧
      part.entry = eb) ∧
    ∀ part ∈ res, p ∈ part.Packets →
      part.entry = eb ∧ part.entry ≠ ea ∧ part.Id = eb.AppEUI ++ addr := by
  have hne : ea ≠ eb := by
    intro h
    exact happ (by rw [h])
  have hvea : p.ValidateMIC ea.NwkSKey ≠ some true := by
    rw [hk1]; exact hv1
  have hveb : p.ValidateMIC eb.NwkSKey = some true := by
    rw [hk2]; exact hv2
  have hfm : findMatch p l = some eb := by
    rcases horder with rfl | rfl
    · cases hv : p.ValidateMIC ea.NwkSKey with
      | none => simp [findMatch, hv, hveb]
      | some b =>
        cases b with
        | false => simp [findMatch, hv, hveb]
        | true => exact absurd hv hvea
    · simp [findMatch, hveb]
  have hme : matchedEntry s p eb := ⟨addr, l, hpa, hl, hfm⟩
  have hid : mkPartitionId eb = eb.AppEUI ++ addr := by
    rw [mkPartitionId, copyInto_of_length _ 8 hb1, hszd,
      copyInto_of_length _ 4 hlen]
  have hidne : mkPartitionId ea ≠ mkPartitionId eb := by
    intro hcontra
    apply happ
    rw [mkPartitionId, mkPartitionId, copyInto_of_length _ 8 ha1,
      copyInto_of_length _ 8 hb1] at hcontra
    have h2 := congrArg (List.take 8) hcontra
    rw [List.take_left' ha1, List.take_left' hb1] at h2
    exact h2
  rw [Partition] at hres
  cases hloop : partitionLoop s ps [] with
  | error e2 =>
    simp only [hloop] at hres
    exact absurd hres (by simp)
  | ok r =>
    simp only [hloop] at hres
    cases r with
    | nil => exact absurd hres (by simp)
    | cons a r2 =>
      have hr : a :: r2 = res := by simpa using hres
      subst hr
      have hall : ∀ part ∈ a :: r2, p ∈ part.Packets →
          part.entry = eb ∧ part.entry ≠ ea ∧
            part.Id = eb.AppEUI ++ addr := by
        intro part hpart hppk
        obtain ⟨hsub, hpid, hids, hsnap⟩ :=
          partitionLoop_inv s ps [] [] (a :: r2) hloop (by simp) part hpart
        obtain ⟨e3, hme3, hid3⟩ := hids p hppk
        have he3 : e3 = eb := matchedEntry_unique s p e3 eb hme3 hme
        rw [he3] at hid3
        have hpartid : part.Id = eb.AppEUI ++ addr := by
          rw [← hid3]
          exact hid
        have hsnap_eb : part.entry = eb := by
          obtain ⟨q, hqmem, hqme⟩ := hsnap
          obtain ⟨addr3, l3, hq1, hq2, hq3⟩ := hqme
          have hq4 : part.entry ∈ l3 := findMatch_mem q l3 part.entry hq3
          rcases honly addr3 l3 hq2 part.entry hq4 with hcase | hcase
          · exfalso
            apply hidne
            have h5 : mkPartitionId part.entry = mkPartitionId eb := by
              rw [← hpid, hpartid]
              exact hid.symm
            rw [← hcase]
            exact h5
          · exact hcase
        refine ⟨hsnap_eb, ?_, hpartid⟩
        rw [hsnap_eb]
        exact hne.symm
      refine ⟨?_, hall⟩
      obtain ⟨part, hpart, hpid2, hppk⟩ :=
        partitionLoop_files s ps [] (a :: r2) p eb hmem hme hloop
      obtain ⟨hentry, _, hid2⟩ := hall part hpart hppk
      exact ⟨part, hpart, hppk, hid2, hentry⟩

theorem collision_resolution_amended_witness :
    Partition state0 [pktA, pktB, pktNone] = .ok [partA, partB] ∧
      partB.entry = entryB ∧ partB.entry ≠ entryA ∧
      partB.Id = entryB.AppEUI ++ testAddr :=
  ⟨rfl,
    (collision_resolution_amended state0 [pktA, pktB, pktNone]
      [partA, partB] pktB testAddr testKey1 testKey2 entryA entryB
      [entryA, entryB] rfl rfl (by decide) (by decide) rfl (by decide)
      (by decide)
      (List.mem_cons_of_mem pktA (List.mem_cons_self pktB [pktNone])) rfl
      (by decide) (Or.inl rfl)
      (by
        intro addr2 l2 hlk x hx
        by_cases haddr : testAddr = addr2
        · subst haddr
          have h0 : Lookup state0 testAddr = .ok [entryA, entryB] := by
            decide
          rw [h0] at hlk
          have hl2 : [entryA, entryB] = l2 := by simpa using hlk
          subst hl2
          simp only [List.mem_cons, List.mem_singleton] at hx
          rcases hx with rfl | rfl | hx
          · exact Or.inl rfl
          · exact Or.inr rfl
          · exact absurd hx (List.not_mem_nil x)
        · have h0 : Lookup state0 addr2 = .ok [] := by
            have happs : state0.applications =
                [(testAddr, [entryA.MarshalBinary, entryB.MarshalBinary])] :=
              by decide
            show decodeAll (getBlobs state0.applications addr2) = .ok []
            rw [happs]
            simp [getBlobs, haddr, decodeAll]
          rw [h0] at hlk
          have hl2 : ([] : List handlerEntry) = l2 := by simpa using hlk
          subst hl2
          exact absurd hx (List.not_mem_nil x))
      (by decide) (by decide) rfl).2 partB
      (List.mem_cons_of_mem partA (List.mem_cons_self partB []))
      (List.mem_cons_self pktB [])⟩

/-- C3: a batch containing any packet whose address extraction fails makes
the whole `Partition` call fail with `InvalidStructure`; no partition list
is returned alongside the error. -/
theorem malformed_packet_aborts_batch (s : HandlerState) (ps : List Packet)
    (p : Packet) (hmem : p ∈ ps) (hbad : p.DevAddr = none) :
    Partition s ps = .error .InvalidStructure := by
  rw [Partition, partitionLoop_bad_addr s ps ⟨p, hmem, hbad⟩ []]

theorem malformed_packet_aborts_batch_witness :
    pktBad ∈ [pktA, pktBad] ∧ pktBad.DevAddr = none ∧
      Partition state0 [pktA, pktBad] = .error .InvalidStructure :=
  ⟨List.mem_cons_of_mem pktA (List.mem_cons_self pktBad []), rfl,
    malformed_packet_aborts_batch state0 [pktA, pktBad] pktBad
      (List.mem_cons_of_mem pktA (List.mem_cons_self pktBad [])) rfl⟩

/-- C4: when every packet of the batch resolves to an address whose
candidate list (possibly empty) contains no validating entry, `Partition`
fails with `NotFound`; and a successful `Partition` call never returns an
empty partition list, while a loop result that is non-empty is returned
as-is. -/
theorem no_match_batch_notFound (s : HandlerState) (ps : List Packet) :
    ((∀ p ∈ ps, ∃ addr l, p.DevAddr = some addr ∧ Lookup s addr = .ok l ∧
        ∀ e ∈ l, p.ValidateMIC e.NwkSKey ≠ some true) →
      Partition s ps = .error .NotFound) ∧
    (∀ res, Partition s ps = .ok res → res ≠ []) ∧
    (∀ res, partitionLoop s ps [] = .ok res → res ≠ [] →
      Partition s ps = .ok res) := by
  refine ⟨?_, ?_, ?_⟩
  · intro h
    rw [Partition, partitionLoop_no_match s ps h []]
  · intro res hres
    rw [Partition] at hres
    cases hloop : partitionLoop s ps [] with
    | error e =>
      simp only [hloop] at hres
      exact absurd hres (by simp)
    | ok r =>
      simp only [hloop] at hres
      cases r with
      | nil => exact absurd hres (by simp)
      | cons a r2 =>
        have hr : a :: r2 = res := by simpa using hres
        subst hr
        simp
  · intro res hloop hne
    rw [Partition, hloop]
    cases res with
    | nil => exact absurd rfl hne
    | cons a r2 => rfl

theorem no_match_batch_notFound_witness :
    Partition state0 [pktNone] = .error .NotFound :=
  (no_match_batch_notFound state0 [pktNone]).1 (by
    intro p hp
    rw [List.mem_singleton] at hp
    subst hp
    exact ⟨testAddr, [entryA, entryB], rfl, by decide, by decide⟩)

/-- C5: every partition of a successful `Partition` call lists its packets
as an order-preserving selection (sublist) of the input batch; its id is
the one computed from its snapshot entry; every filed packet resolved, via
lookup and first-match, to an entry bearing this partition's id; and the
snapshot is the resolved entry of one of the partition's packets. -/
theorem partition_preserves_input_order (s : HandlerState)
    (ps : List Packet) (res : List handlerPartition)
    (h : Partition s ps = .ok res) :
    ∀ part ∈ res, part.Packets.Sublist ps ∧
      part.Id = mkPartitionId part.entry ∧
      (∀ p ∈ part.Packets,
        ∃ e, matchedEntry s p e ∧ mkPartitionId e = part.Id) ∧
      ∃ p ∈ part.Packets, matchedEntry s p part.entry := by
  rw [Partition] at h
  cases hloop : partitionLoop s ps [] with
  | error e =>
    simp only [hloop] at h
    exact absurd h (by simp)
  | ok r =>
    simp only [hloop] at h
    cases r with
    | nil => exact absurd h (by simp)
    | cons a r2 =>
      have hr : a :: r2 = res := by simpa using h
      subst hr
      intro part hp
      have hinv := partitionLoop_inv s ps [] [] (a :: r2) hloop
        (by simp) part hp
      simpa [PartInv] using hinv

theorem partition_preserves_input_order_witness :
    Partition state0 [pktA, pktB, pktNone] = .ok [partA, partB] ∧
      partA.Packets.Sublist [pktA, pktB, pktNone] :=
  ⟨rfl, (partition_preserves_input_order state0 [pktA, pktB, pktNone]
    [partA, partB] rfl partA (List.mem_cons_self partA [partB])).1⟩

/-- C10: a candidate whose integrity check errors (`none`) is skipped
exactly as a mismatch would be: the scan continues with the remaining
candidates, and the enclosing step never fails because of it — it returns
`ok`, filing the packet by the outcome on the remaining candidates. -/
theorem mic_error_candidate_skipped (s : HandlerState)
    (acc : List handlerPartition) (p : Packet) (addr : Bytes)
    (e : handlerEntry) (rest : List handlerEntry)
    (haddr : p.DevAddr = some addr)
    (hlk : Lookup s addr = .ok (e :: rest))
    (herr : p.ValidateMIC e.NwkSKey = none) :
    findMatch p (e :: rest) = findMatch p rest ∧
      partitionStep s acc p =
        .ok (match findMatch p rest with
          | none => acc
          | some e2 => addPacket acc (mkPartitionId e2) e2 p) := by
  have hfm : findMatch p (e :: rest) = findMatch p rest := by
    simp [findMatch, herr]
  refine ⟨hfm, ?_⟩
  simp only [partitionStep, haddr, hlk, hfm]
  cases h2 : findMatch p rest with
  | none => simp [h2]
  | some e2 => simp [h2]

theorem mic_error_candidate_skipped_witness :
    pktErr.ValidateMIC entryA.NwkSKey = none ∧
      findMatch pktErr (entryA :: [entryB]) = findMatch pktErr [entryB] ∧
      partitionStep state0 [] pktErr =
        .ok (match findMatch pktErr [entryB] with
          | none => ([] : List handlerPartition)
          | some e2 => addPacket [] (mkPartitionId e2) e2 pktErr) :=
  ⟨by decide,
    (mic_error_candidate_skipped state0 [] pktErr testAddr entryA [entryB]
      rfl (by decide) (by decide)).1,
    (mic_error_candidate_skipped state0 [] pktErr testAddr entryA [entryB]
      rfl (by decide) (by decide)).2⟩

end TTN
